import Mathlib

/-!
Verification of the glogg-io log-data core, the `LogData` facade.

Shallow embedding of `src/src/logdata/src/logdata.cpp` (class `LogData`).
The facade's collaborators (`IndexingData`, the indexer worker, the Qt file
API, `untabify`) are not part of the source excerpt; where a claim depends
on them they are modelled from the spec, and each such definition says so
in its doc comment.

Bytes are `UInt8` lists, decoded strings are `Char` lists.  The newline
byte is `0x0A`, the tab byte `0x09`, tab width 8.
-/

set_option autoImplicit false

namespace LogDataModel

/-- The newline byte `\n` (0x0A), the line terminator. -/
def newlineByte : UInt8 := 10

/-- The tab byte `\t` (0x09). -/
def tabByte : UInt8 := 9

/-- Display / index encodings recognised by the model, identified as in
Qt by their MIB number (`mibEnum`). -/
inductive Encoding where
  | iso8859_1
  | utf8
  | utf16le
  | utf16be
deriving DecidableEq, Repr

/-- Values of `QTextCodec::mibEnum()` for the modelled encodings (IANA MIB numbers). -/
def Encoding.mibEnum : Encoding → Nat
  | .iso8859_1 => 4
  | .utf8 => 106
  | .utf16le => 1014
  | .utf16be => 1013

/-- Modelled from the spec: the byte-width class of an encoding
(`EncodingParameters` in the source tree, not part of the excerpt):
the width in bytes of the line-feed code unit and the position of the
`0x0A` byte inside it.  Single-byte encodings and UTF-8 share the class
`⟨1, 0⟩`; UTF-16 variants have width 2. -/
structure EncodingParameters where
  lineFeedWidth : Nat
  lineFeedIndex : Nat
deriving DecidableEq, Repr

/-- Modelled from the spec: `EncodingParameters(QTextCodec*)`. -/
def encodingParameters : Encoding → EncodingParameters
  | .iso8859_1 => ⟨1, 0⟩
  | .utf8 => ⟨1, 0⟩
  | .utf16le => ⟨2, 0⟩
  | .utf16be => ⟨2, 1⟩

/-- Modelled from the spec: single-byte decoding of one byte to one code
unit (the end-to-end scenarios assume a Latin-1 display encoding, where
byte value = code point).  Multi-byte decoders are out of the model. -/
def byteChar (b : UInt8) : Char := Char.ofNat b.toNat

/-- Modelled from the spec: `codec->toUnicode(bytes)` for a single-byte
display encoding — decode each byte to one code unit.  The `Encoding`
argument records which display codec the caller passed. -/
def toUnicode (_e : Encoding) (bs : List UInt8) : List Char :=
  bs.map byteChar

/-- Modelled from the spec (§4.5 tab expansion): a tab at column `col`
advances to the next multiple of 8; every other character occupies one
column. -/
def untabifyAux : List Char → Nat → List Char
  | [], _ => []
  | c :: cs, col =>
    if c = '\t' then
      let spaces := 8 - col % 8
      List.replicate spaces ' ' ++ untabifyAux cs (col + spaces)
    else
      c :: untabifyAux cs (col + 1)

/-- Modelled from the spec: `untabify` (defined in `abstractlogdata`,
outside the excerpt) — expand tabs with tab stops every 8 columns. -/
def untabify (s : List Char) : List Char := untabifyAux s 0

/-- Modelled from the spec (§4.1): `QFile::readLine` — the bytes from the
current position up to and including the next `\n`, or up to EOF. -/
def readLineAux : List UInt8 → List UInt8
  | [] => []
  | b :: bs => if b = newlineByte then [b] else b :: readLineAux bs

/-- Running `seek(pos); readLine()` on a source holding `bytes`. -/
def readLine (bytes : List UInt8) (pos : Nat) : List UInt8 :=
  readLineAux (bytes.drop pos)

/-- The raw lines of a byte stream: each chunk ends with the `\n` that
terminates it, except that a trailing byte sequence without a terminator
forms one final chunk.  This is the line decomposition the spec's
indexing algorithm (§4.3 steps 4 and 7) induces. -/
def rawLines : List UInt8 → List (List UInt8)
  | [] => []
  | b :: bs =>
    if b = newlineByte then [b] :: rawLines bs
    else
      match rawLines bs with
      | [] => [[b]]
      | l :: ls => (b :: l) :: ls

/-- End offsets of a chunk list laid out starting at byte `start`:
each entry is the offset immediately past the chunk. -/
def endsOf : List (List UInt8) → Nat → List Nat
  | [], _ => []
  | l :: ls, start => (start + l.length) :: endsOf ls (start + l.length)

/-- Modelled from the spec (§4.3): the `line_ends` sequence a full index
of `bytes` produces — for each `\n` the offset of the following byte,
plus `bytes.length` for a trailing unterminated line. -/
def buildLineEnds (bytes : List UInt8) : List Nat :=
  endsOf (rawLines bytes) 0

/-- Modelled from the spec (§4.2): the shared `IndexingData` state. -/
structure IndexingData where
  lineEnds : List Nat
  sizeIndexed : Nat
  maxLength : Nat
  forcedEncoding : Option Encoding
  guessedEncoding : Encoding
deriving DecidableEq, Repr

/-- Accessor `IndexingData::getNbLines` (spec §3: `nb_lines == line_ends.len()`). -/
def IndexingData.getNbLines (d : IndexingData) : Nat := d.lineEnds.length

/-- Accessor `IndexingData::getSize` (spec §4.2: bytes covered by the index). -/
def IndexingData.getSize (d : IndexingData) : Nat := d.sizeIndexed

/-- Accessor `IndexingData::getPosForLine` (spec §4.2): the byte offset of the end
of the given line, `line_ends[line]`. -/
def IndexingData.getPosForLine (d : IndexingData) (line : Nat) : Nat :=
  d.lineEnds.getD line 0

/-- The start byte of a line, as every read operation of `logdata.cpp`
locates it: `0` for line 0, else `getPosForLine (line - 1)`. -/
def lineStartPos (d : IndexingData) (line : Nat) : Nat :=
  if line = 0 then 0 else d.getPosForLine (line - 1)

/-- Modelled from the spec (§4.3): the `IndexingData` a completed full
index pass over `bytes` leaves behind, with no forced encoding and the
default Latin-1 guess. -/
def indexAll (bytes : List UInt8) : IndexingData :=
  { lineEnds := buildLineEnds bytes
    sizeIndexed := bytes.length
    maxLength :=
      ((rawLines bytes).map fun l => (untabify (toUnicode .iso8859_1 l.dropLast)).length).foldr
        Nat.max 0
    forcedEncoding := none
    guessedEncoding := .iso8859_1 }

/-- The attached byte source: a path name and the bytes readable through
the open handle (`QFile`). -/
structure ByteSource where
  name : String
  bytes : List UInt8
deriving DecidableEq, Repr

/-- Enumeration `LogData::MonitoredFileStatus`. -/
inductive MonitoredFileStatus where
  | Unchanged
  | DataAdded
  | Truncated
deriving DecidableEq, Repr

/-- Enumeration `LoadingStatus` emitted by the worker. -/
inductive LoadingStatus where
  | Successful
  | Interrupted
  | NoMemory
deriving DecidableEq, Repr

/-- Variant `LogDataOperation`: the three operation variants of the queue. -/
inductive LogDataOperation where
  | attach (path : String)
  | fullIndex (forcedEncoding : Option Encoding)
  | partialIndex
deriving DecidableEq, Repr

/-- The `LogData` facade state (`logdata.cpp`).  `started` logs, in
order, every operation handed to the worker by `startOperation`;
`watchedFiles` logs every path handed to `FileWatcher::addFile`. -/
structure LogData where
  attached_file : Option ByteSource
  indexing_data : IndexingData
  codec : Encoding
  fileChangedOnDisk : MonitoredFileStatus
  currentOperation : Option LogDataOperation
  nextOperation : Option LogDataOperation
  lastModifiedDate : Option Nat
  started : List LogDataOperation
  watchedFiles : List String
deriving DecidableEq, Repr

/-- The bytes readable through the attached file handle (`attached_file_`
dereference; the code never reaches a read with a null handle because the
index is then empty). -/
def LogData.attachedBytes (st : LogData) : List UInt8 :=
  (st.attached_file.map ByteSource.bytes).getD []

/-- The attached file's name (`attached_file_->fileName()`). -/
def LogData.attachedName (st : LogData) : String :=
  (st.attached_file.map ByteSource.name).getD ""

/-- Slot helper `LogData::startOperation`: hand the current operation, if any, to the
worker thread. -/
def startOperation (st : LogData) : LogData :=
  match st.currentOperation with
  | some op => { st with started := st.started ++ [op] }
  | none => st

/-- Method `LogData::enqueueOperation`: perform the operation immediately when
none is ongoing, otherwise schedule it in the single `nextOperation_`
slot (overwriting whatever was there). -/
def enqueueOperation (st : LogData) (new_operation : LogDataOperation) : LogData :=
  match st.currentOperation with
  | none => startOperation { st with currentOperation := some new_operation }
  | some _ => { st with nextOperation := some new_operation }

/-- Method `LogData::doGetNbLine`. -/
def doGetNbLine (st : LogData) : Nat := st.indexing_data.getNbLines

/-- Method `LogData::doGetLineString`: out-of-bound lines give `""`; otherwise
seek to `0` for line 0 else `getPosForLine (line-1)`, `readLine`, decode
with the display codec, `chop(1)`. -/
def doGetLineString (st : LogData) (line : Nat) : List Char :=
  if line ≥ st.indexing_data.getNbLines then []
  else
    let start := lineStartPos st.indexing_data line
    let rawString := readLine st.attachedBytes start
    (toUnicode st.codec rawString).dropLast

/-- Method `LogData::doGetExpandedLineString`: as `doGetLineString` but the
decoded bytes are untabified before the final `chop(1)`. -/
def doGetExpandedLineString (st : LogData) (line : Nat) : List Char :=
  if line ≥ st.indexing_data.getNbLines then []
  else
    let start := lineStartPos st.indexing_data line
    let rawString := readLine st.attachedBytes start
    (untabify (toUnicode st.codec rawString)).dropLast

/-- Result of a range read, recording besides the decoded lines whether
the out-of-bound warning was logged and which byte range (seek position,
length) was read from the source, if any. -/
structure LinesResult where
  lines : List (List Char)
  warned : Bool
  readRange : Option (Nat × Nat)
deriving DecidableEq, Repr

/-- One element of the slicing loop of `doGetLines` /
`doGetExpandedLines`: decode the blob from `beginning` up to one code
unit before `endPos` (`end - beginning - 1` in the source), untabifying
in the expanded variant. -/
def loopElem (e : Encoding) (expand : Bool) (blob : List UInt8)
    (beginning endPos : Nat) : List Char :=
  let decoded := toUnicode e ((blob.drop beginning).take (endPos - beginning - 1))
  if expand then untabify decoded else decoded

/-- The slicing loop of `doGetLines` / `doGetExpandedLines`: for each of
`remaining` lines starting at `line`, slice the blob from `beginning` to
`getPosForLine line - firstByte`, decode all but the final code unit,
optionally untabify, and continue with `beginning` at the slice end. -/
def getLinesLoop (d : IndexingData) (e : Encoding) (expand : Bool) (blob : List UInt8)
    (firstByte : Nat) : Nat → Nat → Nat → List (List Char)
  | _, 0, _ => []
  | line, remaining + 1, beginning =>
    let endPos := d.getPosForLine line - firstByte
    loopElem e expand blob beginning endPos ::
      getLinesLoop d e expand blob firstByte (line + 1) remaining endPos

/-- Method `LogData::doGetLines`: empty for a zero count, empty with a warning
for a range past `nb_lines`; otherwise one bulk read from `first_byte`
to `getPosForLine last_line`, sliced per line (terminator excluded) and
decoded with the display codec. -/
def doGetLines (st : LogData) (first_line number : Nat) : LinesResult :=
  let last_line := first_line + number - 1
  if number = 0 then ⟨[], false, none⟩
  else if last_line ≥ st.indexing_data.getNbLines then ⟨[], true, none⟩
  else
    let first_byte := lineStartPos st.indexing_data first_line
    let last_byte := st.indexing_data.getPosForLine last_line
    let blob := (st.attachedBytes.drop first_byte).take (last_byte - first_byte)
    ⟨getLinesLoop st.indexing_data st.codec false blob first_byte first_line number 0,
      false, some (first_byte, last_byte - first_byte)⟩

/-- Method `LogData::doGetExpandedLines`: as `doGetLines` with each decoded
slice untabified. -/
def doGetExpandedLines (st : LogData) (first_line number : Nat) : LinesResult :=
  let last_line := first_line + number - 1
  if number = 0 then ⟨[], false, none⟩
  else if last_line ≥ st.indexing_data.getNbLines then ⟨[], true, none⟩
  else
    let first_byte := lineStartPos st.indexing_data first_line
    let last_byte := st.indexing_data.getPosForLine last_line
    let blob := (st.attachedBytes.drop first_byte).take (last_byte - first_byte)
    ⟨getLinesLoop st.indexing_data st.codec true blob first_byte first_line number 0,
      false, some (first_byte, last_byte - first_byte)⟩

/-- The error thrown on a second attach (`CantReattachErr`; the spec
names the same condition `AlreadyAttached`). -/
inductive AttachError where
  | CantReattach
deriving DecidableEq, Repr

/-- Method `LogData::attachFile`: throws when a source is already attached;
otherwise opens the file (content `diskBytes`) and enqueues an
`AttachOperation` for it. -/
def attachFile (st : LogData) (fileName : String) (diskBytes : List UInt8) :
    Except AttachError LogData :=
  if st.attached_file.isSome then
    .error .CantReattach
  else
    .ok (enqueueOperation { st with attached_file := some ⟨fileName, diskBytes⟩ }
      (.attach fileName))

/-- Method `LogData::reOpenFile`: close and reopen by name, so the handle now
reads the bytes currently on disk at that path. -/
def reOpenFile (st : LogData) (diskBytes : List UInt8) : LogData :=
  { st with attached_file := some ⟨st.attachedName, diskBytes⟩ }

/-- Method `LogData::reload`: interrupt the worker (not modelled — it only
signals the background pass), reopen the file, and enqueue a
`FullIndexOperation` carrying the forced encoding. -/
def reload (st : LogData) (forcedEncoding : Option Encoding) (diskBytes : List UInt8) :
    LogData :=
  enqueueOperation (reOpenFile st diskBytes) (.fullIndex forcedEncoding)

/-- Method `LogData::doSetDisplayEncoding`: install the new codec; when its MIB
differs from the index codec's (the forced encoding when set, else the
guess) and the `EncodingParameters` differ too, trigger a `reload` —
forcing the new codec unless it is the guessed one. -/
def doSetDisplayEncoding (st : LogData) (encoding : Encoding) (diskBytes : List UInt8) :
    LogData :=
  let st := { st with codec := encoding }
  let currentIndexCodec := st.indexing_data.forcedEncoding.getD st.indexing_data.guessedEncoding
  if st.codec.mibEnum ≠ currentIndexCodec.mibEnum then
    if encodingParameters st.codec ≠ encodingParameters currentIndexCodec then
      let isGuessedCodec := st.codec.mibEnum = st.indexing_data.guessedEncoding.mibEnum
      reload st (if isGuessedCodec then none else some st.codec) diskBytes
    else st
  else st

/-- The state-transition core of `LogData::fileChangedOnDisk`: given the
previous latched status, the indexed size and the re-stat'd size, the new
status and the operation to enqueue, if any. -/
def fileChangedTransition (prev : MonitoredFileStatus) (file_size real_file_size : Nat) :
    MonitoredFileStatus × Option LogDataOperation :=
  if real_file_size < file_size then (.Truncated, some (.fullIndex none))
  else if real_file_size = file_size then (prev, none)
  else if prev ≠ .DataAdded then (.DataAdded, some .partialIndex)
  else (prev, none)

/-- Slot `LogData::fileChangedOnDisk`: re-stat the path (the file on
disk holds `diskBytes`, modified at `diskMtime`), reopen the handle when
the sizes disagree, then apply `fileChangedTransition` to the indexed
size and the handle's size; when an operation results, enqueue it and
refresh `lastModifiedDate_`. -/
def fileChangedOnDisk (st : LogData) (diskBytes : List UInt8) (diskMtime : Option Nat) :
    LogData :=
  let st :=
    if diskBytes.length ≠ st.attachedBytes.length then reOpenFile st diskBytes else st
  let file_size := st.indexing_data.getSize
  let real_file_size := st.attachedBytes.length
  let (newStatus, newOp) := fileChangedTransition st.fileChangedOnDisk file_size real_file_size
  let st := { st with fileChangedOnDisk := newStatus }
  match newOp with
  | some op => { enqueueOperation st op with lastModifiedDate := diskMtime }
  | none => st

/-- Slot `LogData::indexingFinished`: on `Successful`, reset the
latched status, (re)arm the watcher on the current path and refresh
`lastModifiedDate_` from the file (`fsMtime`, `none` when the file no
longer exists); in every case reset the status to `Unchanged`, then
promote `nextOperation_` to current and start it when non-empty. -/
def indexingFinished (st : LogData) (status : LoadingStatus) (fsMtime : Option Nat) :
    LogData :=
  let st :=
    if status = .Successful then
      { st with fileChangedOnDisk := .Unchanged
                watchedFiles := st.watchedFiles ++ [st.attachedName]
                lastModifiedDate := fsMtime }
    else st
  let st := { st with fileChangedOnDisk := .Unchanged }
  startOperation { st with currentOperation := st.nextOperation, nextOperation := none }

/-- A facade whose attach of a file holding `bytes` has completed
successfully: the source is open and the indexing data is the result of
a full index pass, with the default Latin-1 display codec and an idle
operation queue. -/
def mkIndexed (bytes : List UInt8) : LogData :=
  { attached_file := some ⟨"test.log", bytes⟩
    indexing_data := indexAll bytes
    codec := .iso8859_1
    fileChangedOnDisk := .Unchanged
    currentOperation := none
    nextOperation := none
    lastModifiedDate := none
    started := []
    watchedFiles := [] }

/-- The byte string of an ASCII text. -/
def asciiBytes (s : String) : List UInt8 :=
  s.toList.map fun c => UInt8.ofNat c.toNat

/-- The freshly constructed facade (`LogData::LogData`): no attached
source, empty indexing data, ISO-8859-1 display codec, idle queue. -/
def initialLogData : LogData :=
  { attached_file := none
    indexing_data :=
      { lineEnds := []
        sizeIndexed := 0
        maxLength := 0
        forcedEncoding := none
        guessedEncoding := .iso8859_1 }
    codec := .iso8859_1
    fileChangedOnDisk := .Unchanged
    currentOperation := none
    nextOperation := none
    lastModifiedDate := none
    started := []
    watchedFiles := [] }

/-- The operation-queue observables of a facade state: the running
operation, the single pending slot, and the log of operations handed to
the worker. -/
def queueOf (st : LogData) :
    Option LogDataOperation × Option LogDataOperation × List LogDataOperation :=
  (st.currentOperation, st.nextOperation, st.started)

/-!
Structural lemmas about the line decomposition.

The function `rawLines` splits a byte stream into terminator-inclusive chunks; these
lemmas connect it to `readLineAux`, `buildLineEnds` and byte slices.
-/

theorem rawLines_eq_nil {bs : List UInt8} (h : rawLines bs = []) : bs = [] := by
  cases bs with
  | nil => rfl
  | cons b bs =>
    exfalso
    simp only [rawLines] at h
    split at h
    · exact List.cons_ne_nil _ _ h
    · split at h
      · exact List.cons_ne_nil _ _ h
      · exact List.cons_ne_nil _ _ h

theorem rawLines_flatten : ∀ bs : List UInt8, (rawLines bs).flatten = bs := by
  intro bs
  induction bs with
  | nil => rfl
  | cons b bs ih =>
    simp only [rawLines]
    split
    · rename_i hb
      simp [List.flatten_cons, ih, hb]
    · split
      · rename_i hr
        have : bs = [] := rawLines_eq_nil hr
        simp [this]
      · rename_i l ls hr
        rw [← ih, hr]
        simp [List.flatten_cons]

theorem readLineAux_rawLines :
    ∀ {bs : List UInt8} {l : List UInt8} {ls : List (List UInt8)},
      rawLines bs = l :: ls → readLineAux bs = l := by
  intro bs
  induction bs with
  | nil => intro l ls h; simp [rawLines] at h
  | cons b bs ih =>
    intro l ls h
    simp only [rawLines] at h
    simp only [readLineAux]
    split
    · rename_i hb
      rw [if_pos hb] at h
      exact (List.cons.injEq _ _ _ _ ▸ h).1.symm ▸ rfl
    · rename_i hb
      rw [if_neg hb] at h
      cases hr : rawLines bs with
      | nil =>
        rw [hr] at h
        have hbs : bs = [] := rawLines_eq_nil hr
        subst hbs
        simp only [List.cons.injEq] at h
        rw [← h.1]
        rfl
      | cons l' ls' =>
        rw [hr] at h
        simp only [List.cons.injEq] at h
        rw [← h.1, ih hr]

theorem rawLines_drop :
    ∀ {bs : List UInt8} {l : List UInt8} {ls : List (List UInt8)},
      rawLines bs = l :: ls → rawLines (bs.drop l.length) = ls := by
  intro bs
  induction bs with
  | nil => intro l ls h; simp [rawLines] at h
  | cons b bs ih =>
    intro l ls h
    simp only [rawLines] at h
    split at h
    · obtain ⟨h1, h2⟩ := List.cons.injEq _ _ _ _ ▸ h
      rw [← h1, ← h2]
      rfl
    · rename_i hb
      cases hr : rawLines bs with
      | nil =>
        rw [hr] at h
        have hbs : bs = [] := rawLines_eq_nil hr
        obtain ⟨h1, h2⟩ := List.cons.injEq _ _ _ _ ▸ h
        subst hbs
        rw [← h1, ← h2]
        rfl
      | cons l' ls' =>
        rw [hr] at h
        obtain ⟨h1, h2⟩ := List.cons.injEq _ _ _ _ ▸ h
        rw [← h1, ← h2]
        simpa using ih hr

theorem ne_nil_of_mem_rawLines :
    ∀ {bs : List UInt8} {l : List UInt8}, l ∈ rawLines bs → l ≠ [] := by
  intro bs
  induction bs with
  | nil => intro l h; simp [rawLines] at h
  | cons b bs ih =>
    intro l h
    simp only [rawLines] at h
    split at h
    · rcases List.mem_cons.mp h with h | h
      · subst h; simp
      · exact ih h
    · rename_i hb
      cases hr : rawLines bs with
      | nil =>
        rw [hr] at h
        simp only [List.mem_singleton] at h
        subst h; simp
      | cons l' ls' =>
        rw [hr] at h
        rcases List.mem_cons.mp h with h | h
        · subst h; simp
        · exact ih (hr ▸ List.mem_cons_of_mem _ h)

theorem rawLines_getD_ne_nil {bs : List UInt8} {i : Nat}
    (h : i < (rawLines bs).length) : (rawLines bs).getD i [] ≠ [] := by
  rw [List.getD_eq_getElem _ _ h]
  exact ne_nil_of_mem_rawLines (List.getElem_mem h)

theorem endsOf_length : ∀ (ls : List (List UInt8)) (s : Nat),
    (endsOf ls s).length = ls.length
  | [], _ => rfl
  | _ :: ls, s => by simp [endsOf, endsOf_length ls]

theorem endsOf_getD : ∀ (ls : List (List UInt8)) (s i : Nat), i < ls.length →
    (endsOf ls s).getD i 0 = s + (endsOf ls 0).getD i 0
  | [], _, i, h => absurd h (by simp)
  | l :: ls, s, 0, _ => by simp [endsOf]
  | l :: ls, s, i + 1, h => by
    have hi : i < ls.length := by simpa using h
    simp only [endsOf, List.getD_cons_succ]
    rw [endsOf_getD ls (s + l.length) i hi, endsOf_getD ls (0 + l.length) i hi]
    omega

theorem getPos_indexAll {bytes : List UInt8} (i : Nat) :
    (indexAll bytes).getPosForLine i = (buildLineEnds bytes).getD i 0 := rfl

theorem nbLines_indexAll (bytes : List UInt8) :
    (indexAll bytes).getNbLines = (rawLines bytes).length := by
  simp [indexAll, IndexingData.getNbLines, buildLineEnds, endsOf_length]

theorem getPos_zero {bytes : List UInt8} {l : List UInt8} {ls : List (List UInt8)}
    (h : rawLines bytes = l :: ls) :
    (indexAll bytes).getPosForLine 0 = l.length := by
  rw [getPos_indexAll]
  simp [buildLineEnds, h, endsOf]

theorem getPos_succ {bytes : List UInt8} {l : List UInt8} {ls : List (List UInt8)}
    (h : rawLines bytes = l :: ls) (i : Nat) (hi : i < ls.length) :
    (indexAll bytes).getPosForLine (i + 1) =
      l.length + (indexAll (bytes.drop l.length)).getPosForLine i := by
  rw [getPos_indexAll, getPos_indexAll]
  simp only [buildLineEnds, h, endsOf, List.getD_cons_succ, rawLines_drop h]
  rw [endsOf_getD ls (0 + l.length) i hi]
  omega

theorem lineStart_succ {bytes : List UInt8} {l : List UInt8} {ls : List (List UInt8)}
    (h : rawLines bytes = l :: ls) (i : Nat) (hi : i < ls.length) :
    lineStartPos (indexAll bytes) (i + 1) =
      l.length + lineStartPos (indexAll (bytes.drop l.length)) i := by
  cases i with
  | zero =>
    simp only [lineStartPos, if_neg (Nat.one_ne_zero), if_pos rfl]
    simpa using getPos_zero h
  | succ j =>
    have hj : j < ls.length := Nat.lt_of_succ_lt hi
    have h1 : lineStartPos (indexAll bytes) (j + 1 + 1) =
        (indexAll bytes).getPosForLine (j + 1) := by
      simp [lineStartPos]
    have h2 : lineStartPos (indexAll (bytes.drop l.length)) (j + 1) =
        (indexAll (bytes.drop l.length)).getPosForLine j := by
      simp [lineStartPos]
    rw [h1, h2]
    exact getPos_succ h j hj

theorem readLine_lineStart : ∀ (i : Nat) (bytes : List UInt8),
    i < (rawLines bytes).length →
    readLine bytes (lineStartPos (indexAll bytes) i) = (rawLines bytes).getD i [] := by
  intro i
  induction i with
  | zero =>
    intro bytes h
    cases hr : rawLines bytes with
    | nil => rw [hr] at h; simp at h
    | cons l ls =>
      simp only [lineStartPos, if_pos rfl, readLine, List.drop_zero, hr,
        List.getD_cons_zero]
      exact readLineAux_rawLines hr
  | succ i ih =>
    intro bytes h
    cases hr : rawLines bytes with
    | nil => rw [hr] at h; simp at h
    | cons l ls =>
      have hi : i < ls.length := by rw [hr] at h; simpa using h
      have hdrop : rawLines (bytes.drop l.length) = ls := rawLines_drop hr
      rw [lineStart_succ hr i hi]
      simp only [readLine, hr, List.getD_cons_succ]
      rw [← List.drop_drop]
      have := ih (bytes.drop l.length) (by rw [hdrop]; exact hi)
      rw [hdrop] at this
      exact this

theorem slice_chunk : ∀ (i : Nat) (bytes : List UInt8),
    i < (rawLines bytes).length →
    (bytes.drop (lineStartPos (indexAll bytes) i)).take ((rawLines bytes).getD i []).length =
      (rawLines bytes).getD i [] := by
  intro i
  induction i with
  | zero =>
    intro bytes h
    cases hr : rawLines bytes with
    | nil => rw [hr] at h; simp at h
    | cons l ls =>
      simp only [lineStartPos, if_pos rfl, List.drop_zero, hr, List.getD_cons_zero]
      have hfl : l ++ ls.flatten = bytes := by
        have := rawLines_flatten bytes
        rwa [hr, List.flatten_cons] at this
      rw [← hfl]
      exact List.take_left l ls.flatten
  | succ i ih =>
    intro bytes h
    cases hr : rawLines bytes with
    | nil => rw [hr] at h; simp at h
    | cons l ls =>
      have hi : i < ls.length := by rw [hr] at h; simpa using h
      have hdrop : rawLines (bytes.drop l.length) = ls := rawLines_drop hr
      rw [lineStart_succ hr i hi]
      simp only [hr, List.getD_cons_succ]
      rw [← List.drop_drop]
      have := ih (bytes.drop l.length) (by rw [hdrop]; exact hi)
      rw [hdrop] at this
      exact this

theorem ends_eq_start_add_len : ∀ (i : Nat) (bytes : List UInt8),
    i < (rawLines bytes).length →
    (indexAll bytes).getPosForLine i =
      lineStartPos (indexAll bytes) i + ((rawLines bytes).getD i []).length := by
  intro i
  induction i with
  | zero =>
    intro bytes h
    cases hr : rawLines bytes with
    | nil => rw [hr] at h; simp at h
    | cons l ls =>
      have h0 : lineStartPos (indexAll bytes) 0 = 0 := by simp [lineStartPos]
      rw [h0]
      simpa using getPos_zero hr
  | succ i ih =>
    intro bytes h
    cases hr : rawLines bytes with
    | nil => rw [hr] at h; simp at h
    | cons l ls =>
      have hi : i < ls.length := by rw [hr] at h; simpa using h
      have hdrop : rawLines (bytes.drop l.length) = ls := rawLines_drop hr
      rw [getPos_succ hr i hi, lineStart_succ hr i hi]
      simp only [hr, List.getD_cons_succ]
      have := ih (bytes.drop l.length) (by rw [hdrop]; exact hi)
      rw [hdrop] at this
      omega

theorem lineStart_le_getPos {bytes : List UInt8} {i : Nat}
    (h : i < (rawLines bytes).length) :
    lineStartPos (indexAll bytes) i ≤ (indexAll bytes).getPosForLine i := by
  rw [ends_eq_start_add_len i bytes h]
  exact Nat.le_add_right _ _

theorem getPos_succ_eq {bytes : List UInt8} {i : Nat}
    (h : i + 1 < (rawLines bytes).length) :
    (indexAll bytes).getPosForLine (i + 1) =
      (indexAll bytes).getPosForLine i + ((rawLines bytes).getD (i + 1) []).length := by
  have := ends_eq_start_add_len (i + 1) bytes h
  simpa [lineStartPos] using this

theorem getPos_mono {bytes : List UInt8} : ∀ {i j : Nat}, i ≤ j →
    j < (rawLines bytes).length →
    (indexAll bytes).getPosForLine i ≤ (indexAll bytes).getPosForLine j := by
  intro i j hij hj
  obtain ⟨d, rfl⟩ : ∃ d, j = i + d := ⟨j - i, by omega⟩
  clear hij
  induction d with
  | zero => exact Nat.le_refl _
  | succ d ih =>
    have hd : i + d < (rawLines bytes).length := by omega
    calc (indexAll bytes).getPosForLine i
        ≤ (indexAll bytes).getPosForLine (i + d) := ih hd
      _ ≤ (indexAll bytes).getPosForLine (i + d + 1) := by
          rw [getPos_succ_eq (by omega)]
          exact Nat.le_add_right _ _
      _ = (indexAll bytes).getPosForLine (i + (d + 1)) := by ring_nf

theorem lineStart_le_getPos_of_le {bytes : List UInt8} {i j : Nat} (hij : i ≤ j)
    (hj : j < (rawLines bytes).length) :
    lineStartPos (indexAll bytes) i ≤ (indexAll bytes).getPosForLine j :=
  le_trans (lineStart_le_getPos (lt_of_le_of_lt hij hj)) (getPos_mono hij hj)

theorem chunk_slice_dropLast {bytes : List UInt8} {i : Nat}
    (h : i < (rawLines bytes).length) :
    (bytes.drop (lineStartPos (indexAll bytes) i)).take
        ((indexAll bytes).getPosForLine i - 1 - lineStartPos (indexAll bytes) i) =
      ((rawLines bytes).getD i []).dropLast := by
  have hlen := ends_eq_start_add_len i bytes h
  have harith : (indexAll bytes).getPosForLine i - 1 - lineStartPos (indexAll bytes) i =
      ((rawLines bytes).getD i []).length - 1 := by omega
  have hmin : (((rawLines bytes).getD i []).length - 1) ⊓ ((rawLines bytes).getD i []).length =
      ((rawLines bytes).getD i []).length - 1 := by omega
  calc (bytes.drop (lineStartPos (indexAll bytes) i)).take
          ((indexAll bytes).getPosForLine i - 1 - lineStartPos (indexAll bytes) i)
      = (bytes.drop (lineStartPos (indexAll bytes) i)).take
          (((rawLines bytes).getD i []).length - 1) := by rw [harith]
    _ = ((bytes.drop (lineStartPos (indexAll bytes) i)).take
          ((rawLines bytes).getD i []).length).take
            (((rawLines bytes).getD i []).length - 1) := by rw [List.take_take, hmin]
    _ = ((rawLines bytes).getD i []).take (((rawLines bytes).getD i []).length - 1) := by
          rw [slice_chunk i bytes h]
    _ = ((rawLines bytes).getD i []).dropLast := (List.dropLast_eq_take _).symm

theorem attachedBytes_mkIndexed (bytes : List UInt8) :
    (mkIndexed bytes).attachedBytes = bytes := rfl

theorem nbLines_mkIndexed (bytes : List UInt8) :
    doGetNbLine (mkIndexed bytes) = (rawLines bytes).length := by
  simpa [doGetNbLine, mkIndexed] using nbLines_indexAll bytes

theorem doGetLineString_eq_chunk {bytes : List UInt8} {i : Nat}
    (h : i < (rawLines bytes).length) :
    doGetLineString (mkIndexed bytes) i =
      toUnicode Encoding.iso8859_1 (((rawLines bytes).getD i []).dropLast) := by
  have hnb : ¬ i ≥ (mkIndexed bytes).indexing_data.getNbLines := by
    rw [show (mkIndexed bytes).indexing_data = indexAll bytes from rfl, nbLines_indexAll]
    omega
  simp only [doGetLineString, if_neg hnb]
  rw [show (mkIndexed bytes).indexing_data = indexAll bytes from rfl,
    attachedBytes_mkIndexed, readLine_lineStart i bytes h]
  simp [toUnicode, List.map_dropLast]

theorem doGetExpandedLineString_eq_chunk {bytes : List UInt8} {i : Nat}
    (h : i < (rawLines bytes).length) :
    doGetExpandedLineString (mkIndexed bytes) i =
      (untabify (toUnicode Encoding.iso8859_1 ((rawLines bytes).getD i []))).dropLast := by
  have hnb : ¬ i ≥ (mkIndexed bytes).indexing_data.getNbLines := by
    rw [show (mkIndexed bytes).indexing_data = indexAll bytes from rfl, nbLines_indexAll]
    omega
  simp only [doGetExpandedLineString, if_neg hnb]
  rw [show (mkIndexed bytes).indexing_data = indexAll bytes from rfl,
    attachedBytes_mkIndexed, readLine_lineStart i bytes h]
  rfl

theorem untabifyAux_append_singleton {c : Char} (hc : c ≠ '\t') :
    ∀ (s : List Char) (col : Nat),
      untabifyAux (s ++ [c]) col = untabifyAux s col ++ [c] := by
  intro s
  induction s with
  | nil =>
    intro col
    simp [untabifyAux, if_neg hc]
  | cons a s ih =>
    intro col
    rw [List.cons_append]
    simp only [untabifyAux, List.append_eq]
    split
    · rw [ih]
      simp [List.append_assoc]
    · rw [ih, List.cons_append]

theorem untabify_dropLast {s : List Char} (hne : s ≠ [])
    (hlast : s.getLast? ≠ some '\t') :
    (untabify s).dropLast = untabify s.dropLast := by
  have hc : s.getLast hne ≠ '\t' := by
    intro hEq
    exact hlast (by rw [List.getLast?_eq_getLast s hne, hEq])
  conv_lhs => rw [← List.dropLast_append_getLast hne]
  rw [untabify, untabifyAux_append_singleton hc, List.dropLast_concat]
  rfl

theorem getLinesLoop_length (d : IndexingData) (e : Encoding) (expand : Bool)
    (blob : List UInt8) (fB : Nat) :
    ∀ (r line beginning : Nat), (getLinesLoop d e expand blob fB line r beginning).length = r
  | 0, _, _ => rfl
  | r + 1, line, beginning => by
    simp [getLinesLoop, getLinesLoop_length d e expand blob fB r]

theorem getLinesLoop_getD (d : IndexingData) (e : Encoding) (expand : Bool)
    (blob : List UInt8) (fB : Nat) :
    ∀ (k r line beginning : Nat), k < r →
      (getLinesLoop d e expand blob fB line r beginning).getD k [] =
        loopElem e expand blob
          (if k = 0 then beginning else d.getPosForLine (line + k - 1) - fB)
          (d.getPosForLine (line + k) - fB) := by
  intro k
  induction k with
  | zero =>
    intro r line beginning hk
    obtain ⟨r', rfl⟩ : ∃ r', r = r' + 1 := ⟨r - 1, by omega⟩
    simp [getLinesLoop]
  | succ k ih =>
    intro r line beginning hk
    obtain ⟨r', rfl⟩ : ∃ r', r = r' + 1 := ⟨r - 1, by omega⟩
    have hk' : k < r' := by omega
    simp only [getLinesLoop, List.getD_cons_succ]
    rw [ih r' (line + 1) (d.getPosForLine line - fB) hk']
    cases k with
    | zero => simp
    | succ j =>
      rw [if_neg (by omega : ¬(j + 1 = 0)), if_neg (by omega : ¬(j + 1 + 1 = 0))]
      have e1 : line + 1 + (j + 1) - 1 = line + (j + 1 + 1) - 1 := by omega
      have e2 : line + 1 + (j + 1) = line + (j + 1 + 1) := by omega
      rw [e1, e2]

theorem blob_slice_eq (bytes : List UInt8) (f n k : Nat)
    (hn : 0 < n) (hr : f + n ≤ (rawLines bytes).length) (hk : k < n) :
    (((bytes.drop (lineStartPos (indexAll bytes) f)).take
          ((indexAll bytes).getPosForLine (f + n - 1) - lineStartPos (indexAll bytes) f)).drop
        (if k = 0 then 0
         else (indexAll bytes).getPosForLine (f + k - 1) - lineStartPos (indexAll bytes) f)).take
      ((indexAll bytes).getPosForLine (f + k) - lineStartPos (indexAll bytes) f -
        (if k = 0 then 0
         else (indexAll bytes).getPosForLine (f + k - 1) - lineStartPos (indexAll bytes) f) - 1) =
    ((rawLines bytes).getD (f + k) []).dropLast := by
  have hfk : f + k < (rawLines bytes).length := by omega
  have hfn1 : f + n - 1 < (rawLines bytes).length := by omega
  set d := indexAll bytes with hd
  set fB := lineStartPos d f with hfB
  set beg := (if k = 0 then 0 else d.getPosForLine (f + k - 1) - fB) with hbeg
  have hstart : fB + beg = lineStartPos d (f + k) := by
    rw [hbeg]
    cases k with
    | zero =>
      rw [if_pos rfl, Nat.add_zero, hfB]
      simp
    | succ j =>
      rw [if_neg (by omega : ¬(j + 1 = 0))]
      have h1 : f + (j + 1) - 1 = f + j := by omega
      rw [h1]
      have hle : fB ≤ d.getPosForLine (f + j) := by
        rw [hfB, hd]
        exact lineStart_le_getPos_of_le (by omega) (by omega)
      have h2 : lineStartPos d (f + (j + 1)) = d.getPosForLine (f + j) := by
        rw [lineStartPos, if_neg (by omega : ¬(f + (j + 1) = 0)), h1]
      rw [h2]
      omega
  have hEM : d.getPosForLine (f + k) ≤ d.getPosForLine (f + n - 1) := by
    rw [hd]
    exact getPos_mono (by omega) hfn1
  have hlsE : lineStartPos d (f + k) ≤ d.getPosForLine (f + k) := by
    rw [hd]
    exact lineStart_le_getPos hfk
  rw [List.drop_take, List.drop_drop, List.take_take]
  have hmin : (d.getPosForLine (f + k) - fB - beg - 1) ⊓
      (d.getPosForLine (f + n - 1) - fB - beg) =
      d.getPosForLine (f + k) - fB - beg - 1 := by omega
  rw [hmin]
  have harg : d.getPosForLine (f + k) - fB - beg - 1 =
      d.getPosForLine (f + k) - 1 - lineStartPos d (f + k) := by omega
  rw [harg, hstart, hd]
  exact chunk_slice_dropLast hfk

theorem doGetLines_getD (bytes : List UInt8) (f n k : Nat)
    (hn : 0 < n) (hr : f + n ≤ doGetNbLine (mkIndexed bytes)) (hk : k < n) :
    (doGetLines (mkIndexed bytes) f n).lines.getD k [] =
      doGetLineString (mkIndexed bytes) (f + k) := by
  have hr' : f + n ≤ (rawLines bytes).length := by rwa [nbLines_mkIndexed] at hr
  have hfk : f + k < (rawLines bytes).length := by omega
  have hnb : ¬ (f + n - 1 ≥ (mkIndexed bytes).indexing_data.getNbLines) := by
    rw [show (mkIndexed bytes).indexing_data = indexAll bytes from rfl, nbLines_indexAll]
    omega
  simp only [doGetLines, if_neg (by omega : ¬ n = 0), if_neg hnb]
  rw [getLinesLoop_getD _ _ _ _ _ k n f 0 hk]
  simp only [loopElem, Bool.false_eq_true, if_false,
    show (mkIndexed bytes).indexing_data = indexAll bytes from rfl,
    attachedBytes_mkIndexed, show (mkIndexed bytes).codec = Encoding.iso8859_1 from rfl]
  rw [blob_slice_eq bytes f n k hn hr' hk, doGetLineString_eq_chunk hfk]

theorem doGetExpandedLines_getD (bytes : List UInt8) (f n k : Nat)
    (hn : 0 < n) (hr : f + n ≤ doGetNbLine (mkIndexed bytes)) (hk : k < n)
    (htab : (toUnicode Encoding.iso8859_1 ((rawLines bytes).getD (f + k) [])).getLast? ≠
      some '\t') :
    (doGetExpandedLines (mkIndexed bytes) f n).lines.getD k [] =
      doGetExpandedLineString (mkIndexed bytes) (f + k) := by
  have hr' : f + n ≤ (rawLines bytes).length := by rwa [nbLines_mkIndexed] at hr
  have hfk : f + k < (rawLines bytes).length := by omega
  have hnb : ¬ (f + n - 1 ≥ (mkIndexed bytes).indexing_data.getNbLines) := by
    rw [show (mkIndexed bytes).indexing_data = indexAll bytes from rfl, nbLines_indexAll]
    omega
  simp only [doGetExpandedLines, if_neg (by omega : ¬ n = 0), if_neg hnb]
  rw [getLinesLoop_getD _ _ _ _ _ k n f 0 hk]
  simp only [loopElem, if_pos rfl,
    show (mkIndexed bytes).indexing_data = indexAll bytes from rfl,
    attachedBytes_mkIndexed, show (mkIndexed bytes).codec = Encoding.iso8859_1 from rfl]
  rw [blob_slice_eq bytes f n k hn hr' hk, doGetExpandedLineString_eq_chunk hfk]
  have hne : toUnicode Encoding.iso8859_1 ((rawLines bytes).getD (f + k) []) ≠ [] :=
    fun h => rawLines_getD_ne_nil hfk (List.map_eq_nil_iff.mp h)
  rw [untabify_dropLast hne htab]
  rw [show (toUnicode Encoding.iso8859_1 ((rawLines bytes).getD (f + k) [])).dropLast =
      toUnicode Encoding.iso8859_1 (((rawLines bytes).getD (f + k) []).dropLast) from
    (by simp [toUnicode, List.map_dropLast])]
  simp

theorem doGetLines_length (bytes : List UInt8) (f n : Nat)
    (hn : 0 < n) (hr : f + n ≤ doGetNbLine (mkIndexed bytes)) :
    (doGetLines (mkIndexed bytes) f n).lines.length = n ∧
    (doGetExpandedLines (mkIndexed bytes) f n).lines.length = n := by
  have hnb : ¬ (f + n - 1 ≥ (mkIndexed bytes).indexing_data.getNbLines) := by
    rw [show (mkIndexed bytes).indexing_data = indexAll bytes from rfl, nbLines_indexAll,
      ← nbLines_mkIndexed bytes]
    · omega
  constructor
  · simp only [doGetLines, if_neg (by omega : ¬ n = 0), if_neg hnb]
    exact getLinesLoop_length _ _ _ _ _ n f 0
  · simp only [doGetExpandedLines, if_neg (by omega : ¬ n = 0), if_neg hnb]
    exact getLinesLoop_length _ _ _ _ _ n f 0

/-!
Claim theorems follow, one per claim, each preceded by helper lemmas it
needs.
-/

/-- C1: for every attached file and line `i < nb_lines`, `get_line(i)`
returns the source bytes from `prev_end(i)` (0 for line 0, else
`line_ends[i-1]`, located via `pos_for_line(i-1)` = `lineStartPos`) up to
but excluding `line_ends[i] - 1`, decoded with the current display
encoding — i.e. with exactly one trailing terminator code unit
stripped. -/
theorem c1_get_line_is_slice (bytes : List UInt8) (i : Nat)
    (h : i < doGetNbLine (mkIndexed bytes)) :
    doGetLineString (mkIndexed bytes) i =
      toUnicode (mkIndexed bytes).codec
        ((bytes.drop (lineStartPos (indexAll bytes) i)).take
          ((indexAll bytes).getPosForLine i - 1 - lineStartPos (indexAll bytes) i)) := by
  have h' : i < (rawLines bytes).length := by rwa [nbLines_mkIndexed] at h
  rw [doGetLineString_eq_chunk h', chunk_slice_dropLast h']
  rfl

/-- Witness for C1 at the file `"one\ntwo"`, line 1. -/
theorem c1_get_line_is_slice_witness :
    1 < doGetNbLine (mkIndexed (asciiBytes "one\ntwo")) ∧
    doGetLineString (mkIndexed (asciiBytes "one\ntwo")) 1 =
      toUnicode (mkIndexed (asciiBytes "one\ntwo")).codec
        (((asciiBytes "one\ntwo").drop (lineStartPos (indexAll (asciiBytes "one\ntwo")) 1)).take
          ((indexAll (asciiBytes "one\ntwo")).getPosForLine 1 - 1 -
            lineStartPos (indexAll (asciiBytes "one\ntwo")) 1)) :=
  ⟨by decide, c1_get_line_is_slice (asciiBytes "one\ntwo") 1 (by decide)⟩

/-- C2 counterexample: for the file `"one\ntwo"` (no trailing newline),
the index does count the trailing bytes as a final line (`nb_lines = 2`),
but `get_line(1)` does not return `"two"` — the unconditional `chop(1)`
removes its last character. -/
theorem c2_counterexample :
    doGetNbLine (mkIndexed (asciiBytes "one\ntwo")) = 2 ∧
    doGetLineString (mkIndexed (asciiBytes "one\ntwo")) 1 ≠ "two".toList := by decide

/-- C2 (amended): after attaching `"one\ntwo"`, the trailing unterminated
byte sequence counts as one final line (`nb_lines = 2`), but `get_line(1)`
returns that line with one trailing code unit stripped — `"tw"`, not
`"two"` — because `doGetLineString` chops even when no terminator is
present. -/
theorem c2_unterminated_line_chopped :
    doGetNbLine (mkIndexed (asciiBytes "one\ntwo")) = 2 ∧
    doGetLineString (mkIndexed (asciiBytes "one\ntwo")) 1 = "tw".toList := by decide

/-- C3 counterexample: for the file `"a\t"` (unterminated final line
ending in a tab), `get_expanded_lines(0,1)[0]` differs from
`get_expanded_line(0)`: the single-line read untabifies before chopping
(yielding the expansion minus one space), the range read chops the byte
slice before untabifying (dropping the tab entirely). -/
theorem c3_counterexample :
    0 + 1 ≤ doGetNbLine (mkIndexed (asciiBytes "a\t")) ∧
    (doGetExpandedLines (mkIndexed (asciiBytes "a\t")) 0 1).lines.getD 0 [] ≠
      doGetExpandedLineString (mkIndexed (asciiBytes "a\t")) 0 := by decide

/-- C3 (amended): for every valid range `[f, f+n)` the range reads return
exactly `n` lines and `get_lines(f,n)[k] = get_line(f+k)` for every
`k < n`; `get_expanded_lines(f,n)[k] = get_expanded_line(f+k)` holds
whenever the decoded text of line `f+k` does not end in a tab character
(a decoded line ends in a tab only when it is the file's unterminated
final line, where the two operations disagree). -/
theorem c3_range_reads_match_single_reads (bytes : List UInt8) (f n k : Nat)
    (hn : 0 < n) (hr : f + n ≤ doGetNbLine (mkIndexed bytes)) (hk : k < n) :
    (doGetLines (mkIndexed bytes) f n).lines.length = n ∧
    (doGetExpandedLines (mkIndexed bytes) f n).lines.length = n ∧
    (doGetLines (mkIndexed bytes) f n).lines.getD k [] =
      doGetLineString (mkIndexed bytes) (f + k) ∧
    ((toUnicode (mkIndexed bytes).codec ((rawLines bytes).getD (f + k) [])).getLast? ≠
        some '\t' →
      (doGetExpandedLines (mkIndexed bytes) f n).lines.getD k [] =
        doGetExpandedLineString (mkIndexed bytes) (f + k)) :=
  ⟨(doGetLines_length bytes f n hn hr).1,
   (doGetLines_length bytes f n hn hr).2,
   doGetLines_getD bytes f n k hn hr hk,
   fun htab => doGetExpandedLines_getD bytes f n k hn hr hk htab⟩

/-- Witness for C3 (amended) at the file `"a\tb\nx\n"`, range `[0,2)`,
element 0. -/
theorem c3_range_reads_match_single_reads_witness :
    (0 < 2 ∧ 0 + 2 ≤ doGetNbLine (mkIndexed (asciiBytes "a\tb\nx\n")) ∧ 0 < 2) ∧
    (doGetLines (mkIndexed (asciiBytes "a\tb\nx\n")) 0 2).lines.length = 2 ∧
    (doGetExpandedLines (mkIndexed (asciiBytes "a\tb\nx\n")) 0 2).lines.length = 2 ∧
    (doGetLines (mkIndexed (asciiBytes "a\tb\nx\n")) 0 2).lines.getD 0 [] =
      doGetLineString (mkIndexed (asciiBytes "a\tb\nx\n")) (0 + 0) ∧
    (doGetExpandedLines (mkIndexed (asciiBytes "a\tb\nx\n")) 0 2).lines.getD 0 [] =
      doGetExpandedLineString (mkIndexed (asciiBytes "a\tb\nx\n")) (0 + 0) := by
  have h := c3_range_reads_match_single_reads (asciiBytes "a\tb\nx\n") 0 2 0
    (by decide) (by decide) (by decide)
  exact ⟨⟨by decide, by decide, by decide⟩, h.1, h.2.1, h.2.2.1, h.2.2.2 (by decide)⟩

theorem queueOf_enqueue (X : LogData) (op : LogDataOperation) :
    queueOf (enqueueOperation X op) =
      match X.currentOperation with
      | none => (some op, X.nextOperation, X.started ++ [op])
      | some c => (some c, some op, X.started) := by
  unfold enqueueOperation startOperation queueOf
  cases X.currentOperation <;> simp

theorem fileChangedOnDisk_spec (st : LogData) (disk : List UInt8) (mt : Option Nat) :
    (fileChangedOnDisk st disk mt).fileChangedOnDisk =
      (fileChangedTransition st.fileChangedOnDisk st.indexing_data.getSize disk.length).1 ∧
    queueOf (fileChangedOnDisk st disk mt) =
      (match (fileChangedTransition st.fileChangedOnDisk st.indexing_data.getSize
          disk.length).2 with
       | some op => queueOf (enqueueOperation st op)
       | none => queueOf st) := by
  simp only [fileChangedOnDisk]
  set st1 := (if disk.length ≠ st.attachedBytes.length then reOpenFile st disk else st)
    with hst1
  have e1 : st1.indexing_data = st.indexing_data := by rw [hst1]; split <;> rfl
  have e2 : st1.fileChangedOnDisk = st.fileChangedOnDisk := by rw [hst1]; split <;> rfl
  have e3 : st1.attachedBytes.length = disk.length := by
    rw [hst1]
    split
    · rfl
    · omega
  have e4 : st1.currentOperation = st.currentOperation := by rw [hst1]; split <;> rfl
  have e5 : st1.nextOperation = st.nextOperation := by rw [hst1]; split <;> rfl
  have e6 : st1.started = st.started := by rw [hst1]; split <;> rfl
  rw [e1, e2, e3]
  rcases htr : fileChangedTransition st.fileChangedOnDisk st.indexing_data.getSize
    disk.length with ⟨ns, op⟩
  cases op with
  | none => simp [queueOf, e4, e5, e6]
  | some op =>
    constructor
    · simp only [enqueueOperation, startOperation]
      cases hc : ({ st1 with fileChangedOnDisk := ns } : LogData).currentOperation <;> simp
    · simp only [show ∀ Y : LogData, queueOf { Y with lastModifiedDate := mt } = queueOf Y
        from fun Y => rfl]
      rw [queueOf_enqueue, queueOf_enqueue]
      simp only [show ({ st1 with fileChangedOnDisk := ns } : LogData).currentOperation =
          st1.currentOperation from rfl,
        show ({ st1 with fileChangedOnDisk := ns } : LogData).nextOperation =
          st1.nextOperation from rfl,
        show ({ st1 with fileChangedOnDisk := ns } : LogData).started = st1.started from rfl,
        e4, e5, e6]

/-- C4: on a file-change notification with indexed size `S_indexed` and
re-stat'd size `S_now`: shrink ⇒ `Truncated` + `FullIndex(none)`
enqueued; equal ⇒ no enqueue, state unchanged; growth from a
non-`DataAdded` state ⇒ `DataAdded` + `PartialIndex` enqueued; growth
from `DataAdded` ⇒ no enqueue, state unchanged. -/
theorem c4_file_change_transitions (st : LogData) (disk : List UInt8) (mt : Option Nat) :
    (disk.length < st.indexing_data.getSize →
      (fileChangedOnDisk st disk mt).fileChangedOnDisk = .Truncated ∧
      queueOf (fileChangedOnDisk st disk mt) =
        queueOf (enqueueOperation st (.fullIndex none))) ∧
    (disk.length = st.indexing_data.getSize →
      (fileChangedOnDisk st disk mt).fileChangedOnDisk = st.fileChangedOnDisk ∧
      queueOf (fileChangedOnDisk st disk mt) = queueOf st) ∧
    (st.indexing_data.getSize < disk.length ∧ st.fileChangedOnDisk ≠ .DataAdded →
      (fileChangedOnDisk st disk mt).fileChangedOnDisk = .DataAdded ∧
      queueOf (fileChangedOnDisk st disk mt) =
        queueOf (enqueueOperation st .partialIndex)) ∧
    (st.indexing_data.getSize < disk.length ∧ st.fileChangedOnDisk = .DataAdded →
      (fileChangedOnDisk st disk mt).fileChangedOnDisk = st.fileChangedOnDisk ∧
      queueOf (fileChangedOnDisk st disk mt) = queueOf st) := by
  obtain ⟨h1, h2⟩ := fileChangedOnDisk_spec st disk mt
  refine ⟨fun h => ?_, fun h => ?_, fun h => ?_, fun h => ?_⟩
  · have ht : fileChangedTransition st.fileChangedOnDisk st.indexing_data.getSize
        disk.length = (.Truncated, some (.fullIndex none)) := by
      unfold fileChangedTransition
      rw [if_pos h]
    rw [ht] at h1 h2
    exact ⟨h1, h2⟩
  · have ht : fileChangedTransition st.fileChangedOnDisk st.indexing_data.getSize
        disk.length = (st.fileChangedOnDisk, none) := by
      unfold fileChangedTransition
      rw [if_neg (by omega), if_pos h]
    rw [ht] at h1 h2
    exact ⟨h1, h2⟩
  · have ht : fileChangedTransition st.fileChangedOnDisk st.indexing_data.getSize
        disk.length = (.DataAdded, some .partialIndex) := by
      unfold fileChangedTransition
      rw [if_neg (by omega), if_neg (by omega), if_pos h.2]
    rw [ht] at h1 h2
    exact ⟨h1, h2⟩
  · have ht : fileChangedTransition st.fileChangedOnDisk st.indexing_data.getSize
        disk.length = (st.fileChangedOnDisk, none) := by
      unfold fileChangedTransition
      rw [if_neg (by omega), if_neg (by omega), if_neg (by simp [h.2])]
    rw [ht] at h1 h2
    exact ⟨h1, h2⟩

/-- Witness for C4: growth case on an idle, freshly indexed facade. -/
theorem c4_file_change_transitions_witness :
    ((mkIndexed (asciiBytes "a\n")).indexing_data.getSize < (asciiBytes "a\nb\n").length ∧
      (mkIndexed (asciiBytes "a\n")).fileChangedOnDisk ≠ .DataAdded) ∧
    (fileChangedOnDisk (mkIndexed (asciiBytes "a\n")) (asciiBytes "a\nb\n")
        (some 5)).fileChangedOnDisk = .DataAdded ∧
    queueOf (fileChangedOnDisk (mkIndexed (asciiBytes "a\n")) (asciiBytes "a\nb\n") (some 5)) =
      queueOf (enqueueOperation (mkIndexed (asciiBytes "a\n")) .partialIndex) := by
  have h := (c4_file_change_transitions (mkIndexed (asciiBytes "a\n"))
    (asciiBytes "a\nb\n") (some 5)).2.2.1 ⟨by decide, by decide⟩
  exact ⟨⟨by decide, by decide⟩, h.1, h.2⟩

/-- C5: the queue holds at most one pending operation: an enqueue on an
idle facade makes the operation current and starts it at once; an enqueue
while one is running overwrites the single pending slot (latest wins);
when the current operation finishes, the pending operation is promoted,
the slot is cleared, and the promoted operation (if any) is started. -/
theorem c5_queue_coalescing (st : LogData) (op : LogDataOperation)
    (status : LoadingStatus) (mt : Option Nat) :
    (st.currentOperation = none →
      (enqueueOperation st op).currentOperation = some op ∧
      (enqueueOperation st op).nextOperation = st.nextOperation ∧
      (enqueueOperation st op).started = st.started ++ [op]) ∧
    (∀ c, st.currentOperation = some c →
      (enqueueOperation st op).currentOperation = some c ∧
      (enqueueOperation st op).nextOperation = some op ∧
      (enqueueOperation st op).started = st.started) ∧
    ((indexingFinished st status mt).currentOperation = st.nextOperation ∧
     (indexingFinished st status mt).nextOperation = none ∧
     (indexingFinished st status mt).started = st.started ++ st.nextOperation.toList) := by
  refine ⟨fun h => ?_, fun c h => ?_, ?_⟩
  · simp [enqueueOperation, startOperation, h]
  · simp [enqueueOperation, startOperation, h]
  · cases status <;> cases hn : st.nextOperation <;>
      simp [indexingFinished, startOperation, hn]

/-- Witness for C5: enqueue on the idle fresh facade, a second enqueue
while that operation runs, and the finish-promotion on the result. -/
theorem c5_queue_coalescing_witness :
    ((enqueueOperation initialLogData (.attach "file.log")).currentOperation =
        some (.attach "file.log") ∧
      (enqueueOperation initialLogData (.attach "file.log")).nextOperation =
        initialLogData.nextOperation ∧
      (enqueueOperation initialLogData (.attach "file.log")).started =
        initialLogData.started ++ [.attach "file.log"]) ∧
    ((enqueueOperation (enqueueOperation initialLogData (.attach "file.log"))
        .partialIndex).currentOperation = some (.attach "file.log") ∧
      (enqueueOperation (enqueueOperation initialLogData (.attach "file.log"))
        .partialIndex).nextOperation = some .partialIndex ∧
      (enqueueOperation (enqueueOperation initialLogData (.attach "file.log"))
        .partialIndex).started =
        (enqueueOperation initialLogData (.attach "file.log")).started) ∧
    ((indexingFinished (enqueueOperation initialLogData (.attach "file.log"))
        .Successful none).currentOperation =
      (enqueueOperation initialLogData (.attach "file.log")).nextOperation ∧
     (indexingFinished (enqueueOperation initialLogData (.attach "file.log"))
        .Successful none).nextOperation = none ∧
     (indexingFinished (enqueueOperation initialLogData (.attach "file.log"))
        .Successful none).started =
      (enqueueOperation initialLogData (.attach "file.log")).started ++
        (enqueueOperation initialLogData (.attach "file.log")).nextOperation.toList) := by
  have h1 := c5_queue_coalescing initialLogData (.attach "file.log") .Successful none
  have h2 := c5_queue_coalescing (enqueueOperation initialLogData (.attach "file.log"))
    .partialIndex .Successful none
  exact ⟨h1.1 rfl, h2.2.1 (.attach "file.log") (by decide), h2.2.2⟩

/-- C6: `attach` succeeds at most once: on a facade with no attached
source it opens the file and enqueues an `AttachOperation`; on a facade
with an attached source it throws (`CantReattachErr`, the condition the
spec names `AlreadyAttached`) before any mutation, leaving the attached
source and the queue unchanged. -/
theorem c6_attach_at_most_once (st : LogData) (fileName : String) (disk : List UInt8) :
    (st.attached_file = none →
      ∃ st', attachFile st fileName disk = .ok st' ∧
        st'.attached_file = some ⟨fileName, disk⟩ ∧
        queueOf st' = queueOf (enqueueOperation st (.attach fileName))) ∧
    (∀ src, st.attached_file = some src →
      attachFile st fileName disk = .error .CantReattach) := by
  constructor
  · intro h
    refine ⟨enqueueOperation { st with attached_file := some ⟨fileName, disk⟩ }
      (.attach fileName), ?_, ?_, ?_⟩
    · simp [attachFile, h]
    · simp [enqueueOperation, startOperation]
      cases hc : ({ st with attached_file := some ⟨fileName, disk⟩ } : LogData).currentOperation <;>
        simp [hc]
    · rw [queueOf_enqueue, queueOf_enqueue]
  · intro src h
    simp [attachFile, h]

/-- Witness for C6: first attach on the fresh facade succeeds; a second
attach on an attached facade fails. -/
theorem c6_attach_at_most_once_witness :
    (∃ st', attachFile initialLogData "file.log" (asciiBytes "a\n") = .ok st' ∧
      st'.attached_file = some ⟨"file.log", asciiBytes "a\n"⟩ ∧
      queueOf st' = queueOf (enqueueOperation initialLogData (.attach "file.log"))) ∧
    attachFile (mkIndexed (asciiBytes "a\n")) "file.log" [] = .error .CantReattach := by
  refine ⟨(c6_attach_at_most_once initialLogData "file.log" (asciiBytes "a\n")).1 rfl, ?_⟩
  exact (c6_attach_at_most_once (mkIndexed (asciiBytes "a\n")) "file.log" []).2
    ⟨"test.log", asciiBytes "a\n"⟩ rfl

/-- C7: any line number `≥ nb_lines` yields the empty string from
`get_line` / `get_expanded_line`, any range whose last line is
`≥ nb_lines` (or whose count is zero) yields the empty sequence from
`get_lines` / `get_expanded_lines`, and the freshly constructed facade
has `nb_lines = 0`, so every line access on it is empty. -/
theorem c7_out_of_bound_reads_empty (st : LogData) (n f num : Nat) :
    (n ≥ doGetNbLine st →
      doGetLineString st n = [] ∧ doGetExpandedLineString st n = []) ∧
    (num = 0 ∨ f + num - 1 ≥ doGetNbLine st →
      (doGetLines st f num).lines = [] ∧ (doGetExpandedLines st f num).lines = []) ∧
    doGetNbLine initialLogData = 0 := by
  refine ⟨fun h => ?_, fun h => ?_, rfl⟩
  · constructor
    · simp only [doGetLineString, if_pos (show n ≥ st.indexing_data.getNbLines from h)]
    · simp only [doGetExpandedLineString, if_pos (show n ≥ st.indexing_data.getNbLines from h)]
  · rcases h with h | h
    · subst h
      exact ⟨rfl, rfl⟩
    · by_cases h0 : num = 0
      · subst h0
        exact ⟨rfl, rfl⟩
      · constructor
        · simp only [doGetLines, if_neg h0,
            if_pos (show f + num - 1 ≥ st.indexing_data.getNbLines from h)]
        · simp only [doGetExpandedLines, if_neg h0,
            if_pos (show f + num - 1 ≥ st.indexing_data.getNbLines from h)]

/-- Witness for C7 at a two-line file, line 5 and range `[1, 1+4)`. -/
theorem c7_out_of_bound_reads_empty_witness :
    (5 ≥ doGetNbLine (mkIndexed (asciiBytes "a\nb\n")) ∧
      1 + 4 - 1 ≥ doGetNbLine (mkIndexed (asciiBytes "a\nb\n"))) ∧
    doGetLineString (mkIndexed (asciiBytes "a\nb\n")) 5 = [] ∧
    doGetExpandedLineString (mkIndexed (asciiBytes "a\nb\n")) 5 = [] ∧
    (doGetLines (mkIndexed (asciiBytes "a\nb\n")) 1 4).lines = [] ∧
    (doGetExpandedLines (mkIndexed (asciiBytes "a\nb\n")) 1 4).lines = [] := by
  have h := c7_out_of_bound_reads_empty (mkIndexed (asciiBytes "a\nb\n")) 5 1 4
  have ha := h.1 (by decide)
  have hb := h.2.1 (Or.inr (by decide))
  exact ⟨⟨by decide, by decide⟩, ha.1, ha.2, hb.1, hb.2⟩

theorem mibEnum_inj : ∀ e1 e2 : Encoding, e1.mibEnum = e2.mibEnum → e1 = e2 := by
  intro e1 e2 h
  cases e1 <;> cases e2 <;> simp_all [Encoding.mibEnum]

theorem enqueue_preserves (X : LogData) (op : LogDataOperation) :
    (enqueueOperation X op).codec = X.codec ∧
    (enqueueOperation X op).attached_file = X.attached_file ∧
    (enqueueOperation X op).indexing_data = X.indexing_data ∧
    (enqueueOperation X op).fileChangedOnDisk = X.fileChangedOnDisk ∧
    (enqueueOperation X op).lastModifiedDate = X.lastModifiedDate := by
  unfold enqueueOperation startOperation
  rcases hX : X.currentOperation with _ | c <;> simp

/-- C8: `set_display_encoding` always installs the new decoder for
subsequent reads; it triggers a reload — a full reindex forcing the new
encoding, or forcing nothing when the new encoding is the guessed one —
precisely when the requested encoding's byte-width class
(`EncodingParameters`) differs from the current index encoding's (the
forced encoding when set, else the guess); with the same byte-width
class the codec changes in place with no reindex and no other state
change. -/
theorem c8_set_display_encoding (st : LogData) (e : Encoding) (disk : List UInt8) :
    (doSetDisplayEncoding st e disk).codec = e ∧
    (encodingParameters e =
        encodingParameters (st.indexing_data.forcedEncoding.getD
          st.indexing_data.guessedEncoding) →
      doSetDisplayEncoding st e disk = { st with codec := e }) ∧
    (encodingParameters e ≠
        encodingParameters (st.indexing_data.forcedEncoding.getD
          st.indexing_data.guessedEncoding) →
      queueOf (doSetDisplayEncoding st e disk) =
        queueOf (enqueueOperation st (.fullIndex
          (if e.mibEnum = st.indexing_data.guessedEncoding.mibEnum then none
           else some e)))) := by
  refine ⟨?_, fun h => ?_, fun h => ?_⟩
  · simp only [doSetDisplayEncoding]
    split
    · split
      · rw [reload, (enqueue_preserves _ _).1]
        rfl
      · rfl
    · rfl
  · simp only [doSetDisplayEncoding]
    split
    · rw [if_neg (by simpa using h)]
    · rfl
  · have hne : e ≠ st.indexing_data.forcedEncoding.getD st.indexing_data.guessedEncoding := by
      intro hEq
      exact h (by rw [hEq])
    have hmib : Encoding.mibEnum e ≠
        Encoding.mibEnum (st.indexing_data.forcedEncoding.getD
          st.indexing_data.guessedEncoding) := by
      intro hEq
      exact hne (mibEnum_inj _ _ hEq)
    simp only [doSetDisplayEncoding]
    rw [if_pos (by simpa using hmib), if_pos (by simpa using h), reload]
    rw [queueOf_enqueue, queueOf_enqueue]
    rfl

/-- Witness for C8: requesting UTF-16LE on a Latin-1-indexed facade
reloads (forcing UTF-16LE); requesting UTF-8 (same byte-width class)
only swaps the codec in place. -/
theorem c8_set_display_encoding_witness :
    (doSetDisplayEncoding (mkIndexed (asciiBytes "a\n")) .utf16le
        (asciiBytes "a\n")).codec = .utf16le ∧
    doSetDisplayEncoding (mkIndexed (asciiBytes "a\n")) .utf8 (asciiBytes "a\n") =
      { mkIndexed (asciiBytes "a\n") with codec := .utf8 } ∧
    queueOf (doSetDisplayEncoding (mkIndexed (asciiBytes "a\n")) .utf16le
        (asciiBytes "a\n")) =
      queueOf (enqueueOperation (mkIndexed (asciiBytes "a\n"))
        (.fullIndex (if Encoding.mibEnum .utf16le =
            (mkIndexed (asciiBytes "a\n")).indexing_data.guessedEncoding.mibEnum then none
          else some .utf16le))) :=
  ⟨(c8_set_display_encoding (mkIndexed (asciiBytes "a\n")) .utf16le (asciiBytes "a\n")).1,
   (c8_set_display_encoding (mkIndexed (asciiBytes "a\n")) .utf8
     (asciiBytes "a\n")).2.1 (by decide),
   (c8_set_display_encoding (mkIndexed (asciiBytes "a\n")) .utf16le
     (asciiBytes "a\n")).2.2 (by decide)⟩

/-- C9: when an indexing operation finishes, the latched file-change
state is reset to `Unchanged` for every status; the watcher is
(re)armed on the current path and `last_modified` is refreshed from the
file only when the status is `Successful`. -/
theorem c9_indexing_finished_reset (st : LogData) (status : LoadingStatus)
    (mt : Option Nat) :
    (indexingFinished st status mt).fileChangedOnDisk = .Unchanged ∧
    (indexingFinished st status mt).lastModifiedDate =
      (if status = .Successful then mt else st.lastModifiedDate) ∧
    (indexingFinished st status mt).watchedFiles =
      (if status = .Successful then st.watchedFiles ++ [st.attachedName]
       else st.watchedFiles) := by
  cases status <;> cases hn : st.nextOperation <;>
    simp [indexingFinished, startOperation, hn]

/-- C10: a zero-count range read returns the empty result for every
first line (also one past the end), reading nothing from the source and
logging no out-of-bound warning — the count-zero check precedes the
bound check. -/
theorem c10_zero_count_reads_nothing (st : LogData) (f : Nat) :
    doGetLines st f 0 = ⟨[], false, none⟩ ∧
    doGetExpandedLines st f 0 = ⟨[], false, none⟩ :=
  ⟨rfl, rfl⟩

end LogDataModel
